import Mathlib

set_option maxHeartbeats 1000000
set_option linter.unusedVariables false

/-!
Verification development for the tree-sitter-stlcpp repository.

The repository ships a 26-line Rust binding (src/bindings/rust/lib.rs) that
exposes a foreign, pre-compiled grammar table.  The grammar-driven incremental
parsing engine that the handle refers to (grammar table compiler, lexer,
table-driven parser, tree/edit model) is generated code that is not part of the
visible sources, so each of its components below is modelled from the
specification text (sections 2, 3, 4.1 to 4.4, 6, 7 of spec.md) and marked as
such in its doc comment.  The binding itself is embedded directly from
src/bindings/rust/lib.rs.
-/

/-! ## String constants used by the model -/

/-- Kind name used for tokens over bytes the lexer could not match. -/
def kError : String := "$error"

/-- Kind name of the synthetic root node wrapping a finished parse stack. -/
def kRoot : String := "$root"

/-! ## Tokens and syntax nodes (spec section 3, Token and Syntax Node) -/

/-- Modelled from the spec: a Token (section 3) has an enumerated kind, a byte
range in the source, and optional flags marking it as an error or missing
placeholder.  The concrete token type of the engine is not under src. -/
structure Token where
  kind : String
  start : Nat
  stop : Nat
  isErr : Bool
  isMissing : Bool
deriving DecidableEq

/-- Modelled from the spec: a Syntax Node (section 3) has a kind (named rule or
token kind), a byte range, an ordered sequence of owned children, and flags for
error and missing status.  We additionally record whether the node is a leaf
(a token) so that interior nodes with no children (empty repetitions) are not
confused with tokens.  The engine node type is not under src. -/
inductive Node where
  | mk (kind : String) (start stop : Nat) (isErr isMissing isLeaf : Bool)
      (children : List Node)

def Node.kind : Node → String
  | .mk k _ _ _ _ _ _ => k

def Node.start : Node → Nat
  | .mk _ s _ _ _ _ _ => s

def Node.stop : Node → Nat
  | .mk _ _ e _ _ _ _ => e

def Node.isErr : Node → Bool
  | .mk _ _ _ b _ _ _ => b

def Node.isMissing : Node → Bool
  | .mk _ _ _ _ b _ _ => b

def Node.isLeaf : Node → Bool
  | .mk _ _ _ _ _ b _ => b

def Node.children : Node → List Node
  | .mk _ _ _ _ _ _ cs => cs

/-- Leaf node carrying exactly the data of a token. -/
def Node.ofToken (t : Token) : Node :=
  .mk t.kind t.start t.stop t.isErr t.isMissing true []

mutual

/-- Tokens at the leaves of a node, in source order.  Interior nodes with no
children contribute nothing. -/
def leavesN : Node → List Token
  | .mk k s e a m true _ => [⟨k, s, e, a, m⟩]
  | .mk _ _ _ _ _ false cs => leavesL cs

def leavesL : List Node → List Token
  | [] => []
  | c :: cs => leavesN c ++ leavesL cs

end

/-- A list of nodes forms a contiguous chain of ranges from a start offset to a
stop offset: each node starts exactly where the previous one stopped.  This is
the child-range invariant of spec section 3: consecutive children are
non-overlapping and contiguous, and together they span the given range. -/
def ChainFrom : Nat → List Node → Nat → Prop
  | s, [], e => s = e
  | s, c :: cs, e => c.start = s ∧ ChainFrom c.stop cs e

/-- Contiguity of a token list from a start offset to a stop offset; each
token also has a well-ordered range. -/
def ChainToks : Nat → List Token → Nat → Prop
  | s, [], e => s = e
  | s, t :: ts, e => t.start = s ∧ t.start ≤ t.stop ∧ ChainToks t.stop ts e

/-- Structural well-formedness of a syntax node, following the invariant of
spec section 3: the children of every node have pairwise non-overlapping
ranges, are contiguous, and exactly span the parent range (hence are nested
inside it).  Leaves have no children and a non-negative width. -/
inductive Wf : Node → Prop where
  | leaf : ∀ (k : String) (s e : Nat) (a m : Bool),
      s ≤ e → Wf (.mk k s e a m true [])
  | node : ∀ (k : String) (s e : Nat) (a m : Bool) (cs : List Node),
      (∀ c ∈ cs, Wf c) → ChainFrom s cs e → Wf (.mk k s e a m false cs)

/-! ## Lexer (spec section 4.1) -/

/-- Modelled from the spec: a lexical rule maps a literal text to a token
kind.  The lexer of the engine is not under src; section 4.1 requires longest
match to win and, on a tie, the rule declared earlier to win. -/
structure LexRule where
  kind : String
  text : List Char
deriving DecidableEq

/-- Modelled from the spec: rule selection of section 4.1.  Scans the rule
list; a rule matches when its text is a non-empty prefix of the remaining
input.  A later rule replaces the current best only when its match is strictly
longer, so the longest match wins and ties go to the rule declared first. -/
def munch : List LexRule → List Char → Option (String × Nat)
  | [], _ => none
  | r :: rest, s =>
    if 0 < r.text.length ∧ r.text.isPrefixOf s then
      match munch rest s with
      | some p => if r.text.length < p.2 then some p else some (r.kind, r.text.length)
      | none => some (r.kind, r.text.length)
    else munch rest s

/-- Largest text length among the lexical rules; the lexer never examines more
than this many bytes beyond the current position. -/
def maxTokLen (rules : List LexRule) : Nat :=
  rules.foldr (fun r acc => max r.text.length acc) 0

/-- Modelled from the spec: one lexer step at byte offset p (section 4.1).
When no rule matches, the unparseable byte becomes a width-one error token
(section 7, lexical errors are recoverable). -/
def tokenAt (rules : List LexRule) (txt : List Char) (p : Nat) : Token :=
  match munch rules (txt.drop p) with
  | some kn => ⟨kn.1, p, p + kn.2, false, false⟩
  | none => ⟨kError, p, p + 1, true, false⟩

theorem munch_pos {rules : List LexRule} {s : List Char} {kn : String × Nat}
    (h : munch rules s = some kn) : 0 < kn.2 := by
  induction rules with
  | nil => simp [munch] at h
  | cons r rest ih =>
    simp only [munch] at h
    split at h
    · rename_i hc
      split at h
      · rename_i p hp
        split at h
        · exact ih (h ▸ hp)
        · cases h; exact hc.1
      · cases h; exact hc.1
    · exact ih h

theorem munch_le {rules : List LexRule} {s : List Char} {kn : String × Nat}
    (h : munch rules s = some kn) : kn.2 ≤ s.length := by
  induction rules with
  | nil => simp [munch] at h
  | cons r rest ih =>
    simp only [munch] at h
    split at h
    · rename_i hc
      have hpref : r.text <+: s := by
        have := hc.2
        exact List.isPrefixOf_iff_prefix.mp this
      split at h
      · rename_i p hp
        split at h
        · exact ih (h ▸ hp)
        · cases h; exact hpref.length_le
      · cases h; exact hpref.length_le
    · exact ih h

theorem tokenAt_start (rules : List LexRule) (txt : List Char) (p : Nat) :
    (tokenAt rules txt p).start = p := by
  unfold tokenAt
  split <;> rfl

theorem tokenAt_lt (rules : List LexRule) (txt : List Char) (p : Nat) :
    p < (tokenAt rules txt p).stop := by
  unfold tokenAt
  split
  · rename_i kn h
    have := munch_pos h
    simp only [Token.stop]
    omega
  · simp only [Token.stop]
    omega

theorem tokenAt_stop_le {rules : List LexRule} {txt : List Char} {p : Nat}
    (h : p < txt.length) : (tokenAt rules txt p).stop ≤ txt.length := by
  unfold tokenAt
  split
  · rename_i kn hm
    have := munch_le hm
    simp only [List.length_drop] at this
    simp only [Token.stop]
    omega
  · simp only [Token.stop]
    omega

/-- Fuelled worker of the lexer loop; the fuel dominates the number of
remaining characters, and every step consumes at least one character. -/
def lexGo (rules : List LexRule) (txt : List Char) : Nat → Nat → List Token
  | 0, _ => []
  | fuel + 1, p =>
    if p < txt.length then
      tokenAt rules txt p :: lexGo rules txt fuel (tokenAt rules txt p).stop
    else []

/-- Modelled from the spec: the lexer converts the character stream into a
token sequence (section 2), resumable from any byte offset (section 4.1), with
lexical errors degraded to error tokens rather than failures (section 7). -/
def lexFrom (rules : List LexRule) (txt : List Char) (p : Nat) : List Token :=
  lexGo rules txt (txt.length - p) p

/-- The lexer loop does not depend on its fuel once the fuel dominates the
remaining length. -/
theorem lexGo_fuel {rules : List LexRule} {txt : List Char} :
    ∀ (f1 f2 p : Nat), txt.length - p ≤ f1 → txt.length - p ≤ f2 →
      lexGo rules txt f1 p = lexGo rules txt f2 p := by
  intro f1
  induction f1 with
  | zero =>
    intro f2 p h1 h2
    have hp : ¬ p < txt.length := by omega
    cases f2 with
    | zero => rfl
    | succ g2 => simp [lexGo, hp]
  | succ g1 ih =>
    intro f2 p h1 h2
    by_cases hp : p < txt.length
    · cases f2 with
      | zero => omega
      | succ g2 =>
        simp only [lexGo, if_pos hp]
        have hs := tokenAt_lt rules txt p
        rw [ih g2 ((tokenAt rules txt p).stop) (by omega) (by omega)]
    · cases f2 with
      | zero => simp [lexGo, hp]
      | succ g2 => simp [lexGo, hp]

theorem lexFrom_pos {rules : List LexRule} {txt : List Char} {p : Nat}
    (h : p < txt.length) :
    lexFrom rules txt p = tokenAt rules txt p :: lexFrom rules txt (tokenAt rules txt p).stop := by
  rw [lexFrom, lexFrom]
  have h1 : txt.length - p = (txt.length - p - 1) + 1 := by omega
  rw [h1]
  simp only [lexGo, if_pos h]
  have hs := tokenAt_lt rules txt p
  rw [lexGo_fuel (txt.length - p - 1) (txt.length - (tokenAt rules txt p).stop)
    ((tokenAt rules txt p).stop) (by omega) (by omega)]

theorem lexFrom_neg {rules : List LexRule} {txt : List Char} {p : Nat}
    (h : ¬ p < txt.length) : lexFrom rules txt p = [] := by
  rw [lexFrom]
  have h1 : txt.length - p = 0 := by omega
  rw [h1]
  rfl

/-- The token stream starting at p is contiguous and covers exactly the bytes
from p to the end of the text. -/
theorem lexFrom_chain (rules : List LexRule) (txt : List Char) :
    ∀ n p, txt.length - p ≤ n → p ≤ txt.length →
      ChainToks p (lexFrom rules txt p) txt.length := by
  intro n
  induction n with
  | zero =>
    intro p hn hp
    have hlen : p = txt.length := by omega
    rw [lexFrom_neg (by omega)]
    exact hlen
  | succ n ih =>
    intro p hn hp
    by_cases h : p < txt.length
    · rw [lexFrom_pos h]
      have h1 := tokenAt_lt rules txt p
      have h0 := tokenAt_start rules txt p
      refine ⟨h0, by omega, ?_⟩
      have h2 := @tokenAt_stop_le rules txt p h
      exact ih _ (by omega) h2
    · rw [lexFrom_neg h]
      show p = txt.length
      omega

/-- Every token in the stream is reproduced by a single lexer step at its own
start offset, and the stream from that offset begins with it. -/
theorem lexFrom_mem (rules : List LexRule) (txt : List Char) :
    ∀ n p t, txt.length - p ≤ n → t ∈ lexFrom rules txt p →
      t.start < txt.length ∧ tokenAt rules txt t.start = t := by
  intro n
  induction n with
  | zero =>
    intro p t hn ht
    by_cases h : p < txt.length
    · omega
    · rw [lexFrom_neg h] at ht
      simp at ht
  | succ n ih =>
    intro p t hn ht
    by_cases h : p < txt.length
    · rw [lexFrom_pos h] at ht
      rcases List.mem_cons.mp ht with h1 | h2
      · subst h1
        exact ⟨by rw [tokenAt_start]; exact h, by rw [tokenAt_start]⟩
      · have h1 := tokenAt_lt rules txt p
        exact ih ((tokenAt rules txt p).stop) t (by omega) h2
    · rw [lexFrom_neg h] at ht
      simp at ht

/-! ## Grammar rules and the table compiler (spec sections 3, 4.2) -/

/-- Modelled from the spec: associativity carried by a precedence annotation
(section 2, precedence/associativity resolution). -/
inductive Assoc where
  | left
  | right
deriving DecidableEq

/-- Modelled from the spec: the body of a Grammar Rule (section 3) is a tree
of combinators: literal token, rule reference, ordered choice, sequence,
repetition (zero-or-more and one-or-more), optional, and precedence-tagged
variant.  The engine grammar description language is not under src. -/
inductive RuleBody where
  | lit : String → RuleBody
  | ref : String → RuleBody
  | choice : RuleBody → RuleBody → RuleBody
  | seq : RuleBody → RuleBody → RuleBody
  | rep0 : RuleBody → RuleBody
  | rep1 : RuleBody → RuleBody
  | opt : RuleBody → RuleBody
  | tagged : Nat → Assoc → RuleBody → RuleBody
deriving DecidableEq

/-- Modelled from the spec: the full declarative rule set handed to the
Grammar Table Compiler (section 4.2): named productions, the lexical texts of
each terminal kind, and a start rule. -/
structure RuleSet where
  rules : List (String × RuleBody)
  terminals : List (String × List (List Char))
  start : String

/-- Rule names referenced inside a body. -/
def refsOf : RuleBody → List String
  | .lit _ => []
  | .ref n => [n]
  | .choice a b => refsOf a ++ refsOf b
  | .seq a b => refsOf a ++ refsOf b
  | .rep0 b => refsOf b
  | .rep1 b => refsOf b
  | .opt b => refsOf b
  | .tagged _ _ b => refsOf b

def ruleNames (rs : RuleSet) : List String := rs.rules.map Prod.fst

/-- Rule names that are referenced (or serve as start symbol) without being
defined; spec section 7 makes these a fatal grammar compile error. -/
def undefinedRefs (rs : RuleSet) : List String :=
  ((rs.start :: rs.rules.flatMap fun nb => refsOf nb.2).filter
    (fun n => ! (ruleNames rs).contains n)).dedup

def directRefs (rs : RuleSet) (n : String) : List String :=
  match rs.rules.find? (fun nb => nb.1 == n) with
  | some nb => refsOf nb.2
  | none => []

def reachStep (rs : RuleSet) (acc : List String) : List String :=
  (acc ++ acc.flatMap (directRefs rs)).dedup

/-- Iterated expansion of the set of rule names reachable from the start rule
by following references; the rule count bounds the number of useful rounds. -/
def reachableFrom (rs : RuleSet) : Nat → List String
  | 0 => [rs.start]
  | n + 1 => reachStep rs (reachableFrom rs n)

def reachableSet (rs : RuleSet) : List String :=
  reachableFrom rs (rs.rules.length + 1)

/-- Defined rules never reachable from the start rule; spec section 7 makes
these a fatal grammar compile error. -/
def unreachableRules (rs : RuleSet) : List String :=
  ((ruleNames rs).filter (fun n => ! (reachableSet rs).contains n)).dedup

/-! ### Lowering combinator bodies to plain productions -/

/-- Grammar symbol: terminal kind or nonterminal rule name. -/
inductive GSym where
  | t : String → GSym
  | nt : String → GSym
deriving DecidableEq

/-- Plain production with an optional precedence/associativity tag. -/
structure Production where
  lhs : String
  rhs : List GSym
  precTag : Option (Nat × Assoc)
deriving DecidableEq

/-- Name fragment for auxiliary repetition rules introduced by lowering. -/
def repMark : String := "$rep"

/-- Modelled from the spec: lowering of one combinator body into alternative
symbol sequences plus auxiliary productions for repetitions.  Returns the
alternatives (each with its precedence tag), the auxiliary productions, and
the next fresh-name counter. -/
def lowerBody (owner : String) :
    RuleBody → Nat → (List (List GSym × Option (Nat × Assoc)) × List Production × Nat)
  | .lit k, c => ([([GSym.t k], none)], [], c)
  | .ref n, c => ([([GSym.nt n], none)], [], c)
  | .choice a b, c =>
    let ra := lowerBody owner a c
    let rb := lowerBody owner b ra.2.2
    (ra.1 ++ rb.1, ra.2.1 ++ rb.2.1, rb.2.2)
  | .seq a b, c =>
    let ra := lowerBody owner a c
    let rb := lowerBody owner b ra.2.2
    (ra.1.flatMap (fun xa => rb.1.map (fun xb => (xa.1 ++ xb.1, xa.2.orElse (fun _ => xb.2)))),
      ra.2.1 ++ rb.2.1, rb.2.2)
  | .opt b, c =>
    let rb := lowerBody owner b c
    (rb.1 ++ [([], none)], rb.2.1, rb.2.2)
  | .rep0 b, c =>
    let rb := lowerBody owner b c
    let an := owner ++ repMark ++ Nat.repr rb.2.2
    ([([GSym.nt an], none)],
      rb.2.1 ++ ⟨an, [], none⟩ :: rb.1.map (fun xa => ⟨an, GSym.nt an :: xa.1, xa.2⟩),
      rb.2.2 + 1)
  | .rep1 b, c =>
    let rb := lowerBody owner b c
    let an := owner ++ repMark ++ Nat.repr rb.2.2
    ([([GSym.nt an], none)],
      rb.2.1 ++ rb.1.map (fun xa => ⟨an, xa.1, xa.2⟩)
        ++ rb.1.map (fun xa => ⟨an, GSym.nt an :: xa.1, xa.2⟩),
      rb.2.2 + 1)
  | .tagged n a b, c =>
    let rb := lowerBody owner b c
    (rb.1.map (fun xa => (xa.1, some (n, a))), rb.2.1, rb.2.2)

def lowerRules : List (String × RuleBody) → Nat → List Production
  | [], _ => []
  | (n, b) :: rest, c =>
    let r := lowerBody n b c
    r.1.map (fun xa => ⟨n, xa.1, xa.2⟩) ++ r.2.1 ++ lowerRules rest r.2.2

/-- All plain productions of a rule set; production 0 is the augmented root
production deriving the start rule. -/
def prodsOf (rs : RuleSet) : List Production :=
  ⟨kRoot, [GSym.nt rs.start], none⟩ :: lowerRules rs.rules 0

/-- Lexical rules of a rule set, in declaration order. -/
def lexRulesOf (rs : RuleSet) : List LexRule :=
  rs.terminals.flatMap (fun kt => kt.2.map (fun s => ⟨kt.1, s⟩))

/-- Terminal kinds appearing in any production. -/
def terminalKinds (prods : List Production) : List String :=
  (prods.flatMap (fun p => p.rhs.filterMap
    (fun s => match s with | .t k => some k | _ => none))).dedup

def prodPrecOf (prods : List Production) (p : Nat) : Option (Nat × Assoc) :=
  match prods[p]? with
  | some pr => pr.precTag
  | none => none

/-- Modelled from the spec: the effective precedence of a lookahead terminal
is the tag of the first tagged production whose right-hand side mentions it.
The exact tie-break policy is an engine policy choice the spec leaves open
(section 9); declaration order is pinned here. -/
def tokPrec (prods : List Production) (k : String) : Option (Nat × Assoc) :=
  match prods.find? (fun pr => pr.precTag.isSome && pr.rhs.contains (GSym.t k)) with
  | some pr => pr.precTag
  | none => none

/-! ### The LR-style item automaton (spec section 4.2) -/

/-- An LR item: production index and dot position. -/
abbrev Item := Nat × Nat

/-- Insert an item into a sorted item list without duplication, keeping the
state representation canonical. -/
def insertItem (i : Item) : List Item → List Item
  | [] => [i]
  | j :: rest =>
    if i = j then j :: rest
    else if i.1 < j.1 ∨ (i.1 = j.1 ∧ i.2 < j.2) then i :: j :: rest
    else j :: insertItem i rest

def insertItems (xs : List Item) (acc : List Item) : List Item :=
  xs.foldl (fun a i => insertItem i a) acc

/-- Symbol after the dot of an item, when any. -/
def symAt (prods : List Production) (i : Item) : Option GSym :=
  match prods[i.1]? with
  | some pr => pr.rhs[i.2]?
  | none => none

def closrStep (prods : List Production) (st : List Item) : List Item :=
  let new := st.flatMap (fun i =>
    match symAt prods i with
    | some (GSym.nt n) =>
      (List.range prods.length).filterMap (fun j =>
        match prods[j]? with
        | some pr => if pr.lhs = n then some ((j, 0) : Item) else none
        | none => none)
    | _ => [])
  insertItems new st

def closrN (prods : List Production) : Nat → List Item → List Item
  | 0, st => st
  | n + 1, st => closrN prods n (closrStep prods st)

/-- Modelled from the spec: LR item-set closr (section 4.2, item automaton
construction); the production count bounds the number of useful rounds. -/
def closr (prods : List Production) (st : List Item) : List Item :=
  closrN prods (prods.length + 1) (insertItems st [])

def advance (prods : List Production) (st : List Item) (x : GSym) : List Item :=
  st.filterMap (fun i => match symAt prods i with
    | some y => if y = x then some ((i.1, i.2 + 1) : Item) else none
    | none => none)

/-- Goto set of a state under a symbol. -/
def gotoSet (prods : List Production) (st : List Item) (x : GSym) : List Item :=
  closr prods (advance prods st x)

/-- Symbols with an outgoing transition from a state. -/
def outSyms (prods : List Production) (st : List Item) : List GSym :=
  (st.filterMap (fun i => symAt prods i)).dedup

def addState (sts : List (List Item)) (s : List Item) : List (List Item) :=
  if sts.contains s then sts else sts ++ [s]

def exploreStep (prods : List Production) (sts : List (List Item)) : List (List Item) :=
  sts.foldl (fun acc st => (outSyms prods st).foldl (fun acc2 x =>
    let g := gotoSet prods st x
    if g = [] then acc2 else addState acc2 g) acc) sts

/-- Fuel that certainly dominates the number of distinct item sets. -/
def statesFuel (prods : List Production) : Nat :=
  2 ^ (prods.foldr (fun pr a => pr.rhs.length + 1 + a) 0)

def buildStatesN (prods : List Production) : Nat → List (List Item) → List (List Item)
  | 0, sts => sts
  | n + 1, sts =>
    let sts2 := exploreStep prods sts
    if sts2 = sts then sts else buildStatesN prods n sts2

/-- Modelled from the spec: the set of Compiled States of the parsing
automaton (section 3), discovered from the closr of the root item. -/
def statesOf (prods : List Production) : List (List Item) :=
  buildStatesN prods (statesFuel prods) [closr prods [((0, 0) : Item)]]

/-! ### Actions, conflict resolution and table assembly (spec section 4.2) -/

/-- Modelled from the spec: the viable actions held by a Compiled State,
keyed by lookahead (section 3): shift to a state, reduce by a production,
accept, or error. -/
inductive PAction where
  | shift : Nat → PAction
  | reduce : Nat → PAction
  | accept : PAction
  | error : PAction
deriving DecidableEq

/-- Outcome of resolving the candidate actions of one state under one
lookahead: a single resolved action, an unresolvable precedence conflict, or
ambiguity whose simultaneously live parse paths exceed the cap. -/
inductive Resolution where
  | act : PAction → Resolution
  | unresolved : Resolution
  | overCap : Nat → Resolution
deriving DecidableEq

/-- Modelled from the spec: the fixed maximum number of simultaneously live
parse paths (section 4.2); beyond it the compiler must fail with a grammar
too ambiguous error. -/
def maxLivePaths : Nat := 8

/-- Shift target of a state under a terminal, when the goto set is non-empty
and already discovered. -/
def shiftTarget (prods : List Production) (sts : List (List Item))
    (st : List Item) (k : String) : Option Nat :=
  let g := gotoSet prods st (GSym.t k)
  if g = [] then none else sts.findIdx? (fun s => s == g)

/-- Indices of non-root productions completed in a state (dot at the end). -/
def completeItems (prods : List Production) (st : List Item) : List Nat :=
  (st.filterMap (fun i =>
    match prods[i.1]? with
    | some pr => if i.2 = pr.rhs.length ∧ i.1 ≠ 0 then some i.1 else none
    | none => none)).dedup

/-- Whether the state contains the completed root item, accepting at the end
of input. -/
def hasAcceptItem (st : List Item) : Bool := st.contains (((0, 1)) : Item)

/-- Modelled from the spec: conflict resolution of section 4.2.  Candidate
actions under one lookahead are a possible shift plus completed reductions.
A shift/reduce pair with precedence on both sides resolves by precedence,
then by associativity (left prefers the reduction, right the shift); equal
precedence with mixed associativity is an unresolved conflict.  Without full
precedence information the candidates count as simultaneously live parse
paths: beyond the cap compilation must fail, within it the choice is pinned
to declaration order (shift first, then the earliest reduction), the policy
point section 9 leaves to the implementer. -/
def resolveA (prods : List Production) (cap : Nat) (k : String)
    (sh : Option Nat) (reds : List Nat) : Resolution :=
  match sh, reds with
  | none, [] => .act .error
  | some s, [] => .act (.shift s)
  | none, [p] => .act (.reduce p)
  | some s, [p] =>
    match prodPrecOf prods p, tokPrec prods k with
    | some rp, some sp =>
      if sp.1 < rp.1 then .act (.reduce p)
      else if rp.1 < sp.1 then .act (.shift s)
      else
        match rp.2, sp.2 with
        | Assoc.left, Assoc.left => .act (.reduce p)
        | Assoc.right, Assoc.right => .act (.shift s)
        | _, _ => .unresolved
    | _, _ => if cap < 2 then .overCap 2 else .act (.shift s)
  | _, _ =>
    let count := (if sh.isSome then 1 else 0) + reds.length
    if cap < count then .overCap count
    else
      match sh with
      | some s => .act (.shift s)
      | none => .act (.reduce (reds.headD 0))

/-- Modelled from the spec: resolution at the end of input.  The completed
root item accepts; otherwise completed reductions apply, counted against the
cap exactly like other ambiguity. -/
def resolveEof (cap : Nat) (hasAcc : Bool) (reds : List Nat) : Resolution :=
  if hasAcc then .act .accept
  else
    match reds with
    | [] => .act .error
    | [p] => .act (.reduce p)
    | _ => if cap < reds.length then .overCap reds.length
           else .act (.reduce (reds.headD 0))

/-- Resolution of every (state, lookahead) pair of a rule set; the lookahead
is a terminal kind or none for the end of input. -/
def stateResolutions (rs : RuleSet) : List (Nat × Option String × Resolution) :=
  let prods := prodsOf rs
  let sts := statesOf prods
  let terms := terminalKinds prods
  (List.range sts.length).flatMap (fun i =>
    match sts[i]? with
    | some st =>
      terms.map (fun k => (i, some k,
        resolveA prods maxLivePaths k (shiftTarget prods sts st k) (completeItems prods st)))
        ++ [(i, none, resolveEof maxLivePaths (hasAcceptItem st) (completeItems prods st))]
    | none => [])

/-- State/lookahead pairs with an unresolved shift/reduce conflict; spec
section 4.2 makes these a compile-time failure. -/
def unresolvedConflicts (rs : RuleSet) : List (Nat × Option String) :=
  (stateResolutions rs).filterMap
    (fun x => if x.2.2 = Resolution.unresolved then some (x.1, x.2.1) else none)

/-- State/lookahead pairs whose simultaneously live parse paths exceed the
fixed maximum; spec section 4.2 makes these a grammar too ambiguous
compile-time failure. -/
def overCapStates (rs : RuleSet) : List (Nat × Option String) :=
  (stateResolutions rs).filterMap
    (fun x => match x.2.2 with | .overCap _ => some (x.1, x.2.1) | _ => none)

/-- Modelled from the spec: the persisted compiled table (sections 3 and 6):
lexical rules, plain productions, one action row per state keyed by lookahead
(none keys the end of input), nonterminal goto rows, and the exploration
cap. -/
structure Table where
  lexRules : List LexRule
  prods : List Production
  actions : List (List (Option String × PAction))
  gotos : List (List (String × Nat))
  cap : Nat

def resolvedAction (r : Resolution) : PAction :=
  match r with
  | .act a => a
  | _ => PAction.error

/-- Table assembly from a checked rule set. -/
def mkTable (rs : RuleSet) : Table :=
  let prods := prodsOf rs
  let sts := statesOf prods
  let terms := terminalKinds prods
  { lexRules := lexRulesOf rs
    prods := prods
    actions := sts.map (fun st =>
      terms.map (fun k => (some k,
        resolvedAction (resolveA prods maxLivePaths k
          (shiftTarget prods sts st k) (completeItems prods st))))
        ++ [(none, resolvedAction
              (resolveEof maxLivePaths (hasAcceptItem st) (completeItems prods st)))])
    gotos := sts.map (fun st =>
      (outSyms prods st).filterMap (fun x =>
        match x with
        | GSym.nt n =>
          match sts.findIdx? (fun s => s == gotoSet prods st x) with
          | some j => some (n, j)
          | none => none
        | _ => none))
    cap := maxLivePaths }

/-- Modelled from the spec: the compile-time failure taxonomy of section 7,
each case reported with the offending rule names or state/lookahead pairs. -/
inductive CompileError where
  | undefinedRule : List String → CompileError
  | unreachableRule : List String → CompileError
  | conflict : List (Nat × Option String) → CompileError
  | tooAmbiguous : List (Nat × Option String) → CompileError

/-- Modelled from the spec: the Grammar Table Compiler (section 4.2).  Input
is the full rule set; output is either a compiled table or a compile-time
failure enumerating undefined-rule references, unreachable rules, unresolved
shift/reduce conflicts, or ambiguity beyond the exploration cap. -/
def compile (rs : RuleSet) : Except CompileError Table :=
  if undefinedRefs rs ≠ [] then Except.error (CompileError.undefinedRule (undefinedRefs rs))
  else if unreachableRules rs ≠ [] then
    Except.error (CompileError.unreachableRule (unreachableRules rs))
  else if unresolvedConflicts rs ≠ [] then
    Except.error (CompileError.conflict (unresolvedConflicts rs))
  else if overCapStates rs ≠ [] then
    Except.error (CompileError.tooAmbiguous (overCapStates rs))
  else Except.ok (mkTable rs)

/-! ## Parser Engine (spec section 4.3) -/

/-- Modelled from the spec: a frame of the parse stack holds a state and a
partially built node (section 4.3). -/
structure Frame where
  st : Nat
  node : Node

/-- Current automaton state: the state of the top frame, or the initial state
0 for the empty stack. -/
def curState (stack : List Frame) : Nat :=
  match stack with
  | [] => 0
  | f :: _ => f.st

/-- Action of the table for a state under a lookahead (none at end of
input); missing entries behave as error entries. -/
def actionFor (tbl : Table) (st : Nat) (k : Option String) : PAction :=
  match tbl.actions[st]? with
  | some row =>
    match row.find? (fun e => e.1 == k) with
    | some e => e.2
    | none => PAction.error
  | none => PAction.error

/-- Goto target for a nonterminal, defaulting to state 0 when missing. -/
def gotoFor (tbl : Table) (st : Nat) (n : String) : Nat :=
  match tbl.gotos[st]? with
  | some row =>
    match row.find? (fun e => e.1 == n) with
    | some e => e.2
    | none => 0
  | none => 0

def rhsLenOf (tbl : Table) (p : Nat) : Nat :=
  match tbl.prods[p]? with
  | some pr => pr.rhs.length
  | none => 0

def lhsOf (tbl : Table) (p : Nat) : String :=
  match tbl.prods[p]? with
  | some pr => pr.lhs
  | none => kRoot

/-- Interior node over a list of children; its range is the exact span of the
children, or the empty range at the given position when there are none. -/
def mkInterior (kind : String) (cs : List Node) (pos : Nat) (isErr : Bool) : Node :=
  match cs with
  | [] => .mk kind pos pos isErr false false []
  | c :: rest => .mk kind c.start ((rest.getLastD c).stop) isErr false false cs

/-- Modelled from the spec: one reduction (section 4.3).  Pops as many frames
as the production right-hand side is long (defensively fewer when the stack
is shorter), wraps their nodes, in source order, into a new node for the
left-hand side, and pushes it with the goto state of the uncovered state. -/
def reduceStep (tbl : Table) (stack : List Frame) (p : Nat) (pos : Nat) : List Frame :=
  let n := rhsLenOf tbl p
  let rest := stack.drop n
  let children := ((stack.take n).map Frame.node).reverse
  let node := mkInterior (lhsOf tbl p) children pos false
  ⟨gotoFor tbl (curState rest) (lhsOf tbl p), node⟩ :: rest

/-- Frame for a token skipped by error recovery: the token leaf is kept
verbatim, wrapped in an error node covering its range (section 4.3, recovery
by treating the current token as extraneous). -/
def errSkip (stack : List Frame) (t : Token) : List Frame :=
  ⟨curState stack, Node.mk t.kind t.start t.stop true t.isMissing false [Node.ofToken t]⟩
    :: stack

/-- Modelled from the spec: consuming one token (section 4.3).  Reductions
apply until the token can be shifted; the fuel, derived from the exploration
cap, bounds that reduction chain, and when it runs out (or the table has no
action) the token is skipped as an extraneous error leaf so that the engine
always makes progress and never hard-fails. -/
def stepTok (tbl : Table) (t : Token) : Nat → List Frame → List Frame
  | 0, stack => errSkip stack t
  | fuel + 1, stack =>
    match actionFor tbl (curState stack) (some t.kind) with
    | PAction.shift s => ⟨s, Node.ofToken t⟩ :: stack
    | PAction.reduce p => stepTok tbl t fuel (reduceStep tbl stack p t.start)
    | PAction.accept => errSkip stack t
    | PAction.error => errSkip stack t

/-- Reduction count of one token step; mirrors the recursion of stepTok. -/
def stepTokSteps (tbl : Table) (t : Token) : Nat → List Frame → Nat
  | 0, _ => 1
  | fuel + 1, stack =>
    match actionFor tbl (curState stack) (some t.kind) with
    | PAction.reduce p => 1 + stepTokSteps tbl t fuel (reduceStep tbl stack p t.start)
    | _ => 1

/-- Modelled from the spec: the main token loop of the Parser Engine
(section 4.3), one stack transition per token. -/
def runToks (tbl : Table) : List Token → List Frame → List Frame
  | [], stack => stack
  | t :: ts, stack => runToks tbl ts (stepTok tbl t tbl.cap stack)

/-- Step count of the main token loop; mirrors the recursion of runToks. -/
def runToksSteps (tbl : Table) : List Token → List Frame → Nat
  | [], _ => 0
  | t :: ts, stack =>
    stepTokSteps tbl t tbl.cap stack + runToksSteps tbl ts (stepTok tbl t tbl.cap stack)

/-- Modelled from the spec: final reductions at the end of input
(section 4.3), bounded by the same cap-derived fuel. -/
def finishRun (tbl : Table) (pos : Nat) : Nat → List Frame → List Frame
  | 0, stack => stack
  | fuel + 1, stack =>
    match actionFor tbl (curState stack) none with
    | PAction.reduce p => finishRun tbl pos fuel (reduceStep tbl stack p pos)
    | _ => stack

/-- Step count of the final reductions; mirrors the recursion of finishRun. -/
def finishRunSteps (tbl : Table) (pos : Nat) : Nat → List Frame → Nat
  | 0, _ => 1
  | fuel + 1, stack =>
    match actionFor tbl (curState stack) none with
    | PAction.reduce p => 1 + finishRunSteps tbl pos fuel (reduceStep tbl stack p pos)
    | _ => 1

/-- Whether the final stack is a cleanly accepted parse: a single frame whose
state accepts at the end of input. -/
def acceptedStack (tbl : Table) (stack : List Frame) : Bool :=
  match stack with
  | [f] => actionFor tbl f.st none == PAction.accept
  | _ => false

/-- Modelled from the spec: after the final reductions the remaining stack is
wrapped into a single root node (section 4.3); a parse that did not reach the
accept action is marked as an error tree, never as a hard failure. -/
def mkRoot (tbl : Table) (stack : List Frame) : Node :=
  mkInterior kRoot ((stack.map Frame.node).reverse) 0 (! acceptedStack tbl stack)

/-- Runs the Parser Engine over an explicit token stream ending at the given
position. -/
def parseCore (tbl : Table) (toks : List Token) (len : Nat) : Node :=
  mkRoot tbl (finishRun tbl len tbl.cap (runToks tbl toks []))

/-- Modelled from the spec: the Parse entry point of section 6,
parse(table, sourceBytes) -> SyntaxTree, built from the lexer and the
table-driven Parser Engine. -/
def parse (tbl : Table) (s : String) : Node :=
  parseCore tbl (lexFrom tbl.lexRules s.data 0) s.data.length

/-- Total step count of a parse: lexed tokens, token-loop steps, and final
reductions.  This is the cost measure of the termination guarantee of spec
section 8. -/
def parseSteps (tbl : Table) (s : String) : Nat :=
  let toks := lexFrom tbl.lexRules s.data 0
  toks.length + runToksSteps tbl toks [] + finishRunSteps tbl s.data.length tbl.cap (runToks tbl toks [])

/-! ## Tree and edit model (spec section 4.4) -/

/-- Modelled from the spec: an Edit Descriptor (section 3): the byte range
removed and the bytes inserted in its place. -/
structure Edit where
  start : Nat
  oldLen : Nat
  inserted : List Char

/-- Application of an edit to a character buffer. -/
def applyEdit (txt : List Char) (e : Edit) : List Char :=
  txt.take e.start ++ e.inserted ++ txt.drop (e.start + e.oldLen)

/-- Application of an edit to a source string. -/
def applyEditS (s : String) (e : Edit) : String := String.mk (applyEdit s.data e)

/-- Modelled from the spec: the reuse condition of incremental re-parse
(section 4.4): a subtree is spliced only when it is undamaged by the edit and
its underlying bytes, including the lookahead window the lexer may have
examined, are unchanged.  Reuse is applied at token granularity: the token
must lie, with its full lookahead window of length L, strictly before the
edited region, or entirely after it, repositioned by the length delta. -/
def Reusable (L oldLen : Nat) (e : Edit) (q : Nat) (t : Token) : Prop :=
  t.start < t.stop ∧
    ((t.start = q ∧ t.start + L ≤ e.start ∧ t.start + L ≤ oldLen) ∨
     (e.start + e.oldLen ≤ t.start ∧ (t.start - e.oldLen) + e.inserted.length = q))

instance (L oldLen : Nat) (e : Edit) (q : Nat) (t : Token) :
    Decidable (Reusable L oldLen e q t) :=
  inferInstanceAs (Decidable (_ ∧ _))

/-- Fuelled worker of the incremental lexer; every step advances by at least
one character because reusable tokens have positive width. -/
def incLexGo (rules : List LexRule) (txt : List Char) (e : Edit)
    (oldLeaves : List Token) (oldLen : Nat) : Nat → Nat → List Token
  | 0, _ => []
  | fuel + 1, q =>
    if q < txt.length then
      match oldLeaves.find? (fun t => decide (Reusable (maxTokLen rules) oldLen e q t)) with
      | some t =>
        ⟨t.kind, q, q + (t.stop - t.start), t.isErr, t.isMissing⟩
          :: incLexGo rules txt e oldLeaves oldLen fuel (q + (t.stop - t.start))
      | none =>
        tokenAt rules txt q
          :: incLexGo rules txt e oldLeaves oldLen fuel ((tokenAt rules txt q).stop)
    else []

/-- Modelled from the spec: incremental lexing (sections 4.1 and 4.4).  At
each position the engine splices the first reusable token of the old tree
instead of re-lexing it; where no old token is reusable it re-lexes
normally. -/
def incLexFrom (rules : List LexRule) (txt : List Char) (e : Edit)
    (oldLeaves : List Token) (oldLen : Nat) (q : Nat) : List Token :=
  incLexGo rules txt e oldLeaves oldLen (txt.length - q) q

theorem incLexGo_fuel {rules : List LexRule} {txt : List Char} {e : Edit}
    {oldLeaves : List Token} {oldLen : Nat} :
    ∀ (f1 f2 q : Nat), txt.length - q ≤ f1 → txt.length - q ≤ f2 →
      incLexGo rules txt e oldLeaves oldLen f1 q
        = incLexGo rules txt e oldLeaves oldLen f2 q := by
  intro f1
  induction f1 with
  | zero =>
    intro f2 q h1 h2
    have hp : ¬ q < txt.length := by omega
    cases f2 with
    | zero => rfl
    | succ g2 => simp [incLexGo, hp]
  | succ g1 ih =>
    intro f2 q h1 h2
    by_cases hp : q < txt.length
    · cases f2 with
      | zero => omega
      | succ g2 =>
        simp only [incLexGo, if_pos hp]
        split
        · rename_i t hf
          have hwp := List.find?_some hf
          rw [decide_eq_true_iff] at hwp
          have hw : t.start < t.stop := hwp.1
          rw [ih g2 (q + (t.stop - t.start)) (by omega) (by omega)]
        · rename_i hf
          have hs := tokenAt_lt rules txt q
          rw [ih g2 ((tokenAt rules txt q).stop) (by omega) (by omega)]
    · cases f2 with
      | zero => simp [incLexGo, hp]
      | succ g2 => simp [incLexGo, hp]

/-- Modelled from the spec: the incremental Parse entry point of section 6,
parse(table, sourceBytes, oldTree, editDescriptor) -> SyntaxTree.  It runs
the same Parser Engine over the incrementally lexed token stream, splicing
reusable tokens of the old tree (section 4.4). -/
def parseInc (tbl : Table) (s : String) (oldTree : Node) (e : Edit) : Node :=
  parseCore tbl (incLexFrom tbl.lexRules s.data e (leavesN oldTree) oldTree.stop 0)
    s.data.length

/-! ## The Rust binding (src/bindings/rust/lib.rs) -/

/-- Modelled from the spec: the pre-compiled table of the stlcpp grammar.
The grammar and its generated parser are build-time artifacts outside src
(sections 2 and 6); only the identity of the table matters to the binding
contract, so its contents are left empty here. -/
def stlcppTable : Table :=
  { lexRules := [], prods := [], actions := [], gotos := [], cap := maxLivePaths }

/-- The opaque language handle of the host ecosystem (tree_sitter::Language
in the binding): an opaque reference to a pre-compiled table for one
specific grammar (spec section 6, handle exchange). -/
structure TSLanguage where
  table : Table

/-- The foreign entry point tree_sitter_stlcpp() declared by
src/bindings/rust/lib.rs lines 9 to 11; its body is the generated parser
outside src.  Modelled from the spec: it hands out the opaque reference to
the one pre-compiled table (section 6). -/
def tree_sitter_stlcpp : Unit → TSLanguage := fun _ => ⟨stlcppTable⟩

/-- The binding function language() of src/bindings/rust/lib.rs lines 14 to
16: a direct tail call to the foreign entry point, with no transformation,
caching, or additional state. -/
def language : Unit → TSLanguage := fun u => tree_sitter_stlcpp u

/-- Modelled from the spec: the effects observable around the binding —
whether the grammar handle is initialized, and how many parses have been
performed (section 6: calling the binding must be side-effect-free beyond
returning/initializing the reference, and the binding performs no
parsing). -/
structure BindingWorld where
  handleInit : Bool
  parsesPerformed : Nat

/-- A call of language() together with its effect on the world: it returns
the handle and at most initializes it. -/
def languageCall (w : BindingWorld) : TSLanguage × BindingWorld :=
  (language (), { w with handleInit := true })


/-! ## Structural lemmas about chains, interior nodes and leaves -/

@[simp] theorem Node.start_mk (k : String) (s e : Nat) (a m l : Bool) (cs : List Node) :
    (Node.mk k s e a m l cs).start = s := rfl

@[simp] theorem Node.stop_mk (k : String) (s e : Nat) (a m l : Bool) (cs : List Node) :
    (Node.mk k s e a m l cs).stop = e := rfl

@[simp] theorem Node.kind_mk (k : String) (s e : Nat) (a m l : Bool) (cs : List Node) :
    (Node.mk k s e a m l cs).kind = k := rfl

@[simp] theorem Node.children_mk (k : String) (s e : Nat) (a m l : Bool) (cs : List Node) :
    (Node.mk k s e a m l cs).children = cs := rfl

@[simp] theorem Node.isErr_mk (k : String) (s e : Nat) (a m l : Bool) (cs : List Node) :
    (Node.mk k s e a m l cs).isErr = a := rfl

@[simp] theorem Node.isLeaf_mk (k : String) (s e : Nat) (a m l : Bool) (cs : List Node) :
    (Node.mk k s e a m l cs).isLeaf = l := rfl

theorem chainFrom_append {xs : List Node} :
    ∀ {s e : Nat} {ys : List Node},
      ChainFrom s (xs ++ ys) e ↔ ∃ m, ChainFrom s xs m ∧ ChainFrom m ys e := by
  induction xs with
  | nil =>
    intro s e ys
    constructor
    · intro h
      exact ⟨s, rfl, h⟩
    · rintro ⟨m, hm, hy⟩
      have hsm : s = m := hm
      exact hsm ▸ hy
  | cons c cs ih =>
    intro s e ys
    constructor
    · rintro ⟨h1, h2⟩
      rcases ih.mp h2 with ⟨m, hm, hy⟩
      exact ⟨m, ⟨h1, hm⟩, hy⟩
    · rintro ⟨m, ⟨h1, hm⟩, hy⟩
      exact ⟨h1, ih.mpr ⟨m, hm, hy⟩⟩

theorem chainFrom_last {c : Node} {cs : List Node} :
    ∀ {s e : Nat}, ChainFrom s (c :: cs) e → (cs.getLastD c).stop = e := by
  induction cs generalizing c with
  | nil =>
    intro s e h
    exact h.2
  | cons d ds ih =>
    intro s e h
    rw [List.getLastD_cons]
    exact ih (c := d) h.2

theorem leavesL_append (xs ys : List Node) :
    leavesL (xs ++ ys) = leavesL xs ++ leavesL ys := by
  induction xs with
  | nil => simp [leavesL]
  | cons c cs ih => simp [leavesL, ih]

theorem leavesN_ofToken (t : Token) : leavesN (Node.ofToken t) = [t] := rfl

theorem leavesN_mkInterior (kind : String) (cs : List Node) (pos : Nat) (b : Bool) :
    leavesN (mkInterior kind cs pos b) = leavesL cs := by
  cases cs with
  | nil => simp [mkInterior, leavesN, leavesL]
  | cons c rest => simp [mkInterior, leavesN]

/-- An interior node built over a chained child list is itself a single link
of the same chain. -/
theorem mkInterior_singleton_chain {m pos : Nat} {cs : List Node}
    (h : ChainFrom m cs pos) (kind : String) (b : Bool) :
    ChainFrom m [mkInterior kind cs pos b] pos := by
  cases cs with
  | nil =>
    have hm : m = pos := h
    subst hm
    exact ⟨rfl, rfl⟩
  | cons c rest =>
    refine ⟨?_, ?_⟩
    · simp only [mkInterior, Node.start_mk]
      exact h.1
    · show (mkInterior kind (c :: rest) pos b).stop = pos
      simp only [mkInterior, Node.stop_mk]
      exact chainFrom_last h

theorem mkInterior_wf {s e pos : Nat} {cs : List Node} (h : ChainFrom s cs e)
    (hw : ∀ c ∈ cs, Wf c) (kind : String) (b : Bool) :
    Wf (mkInterior kind cs pos b) := by
  cases cs with
  | nil => exact Wf.node _ _ _ _ _ _ (by simp) rfl
  | cons c rest =>
    simp only [mkInterior]
    refine Wf.node _ _ _ _ _ _ hw ?_
    refine ⟨rfl, ?_⟩
    rw [chainFrom_last h]
    exact h.2


/-! ## The stack invariant of the Parser Engine -/

/-- Nodes of the stack in source order (the stack stores the top first). -/
def stackNodes (stack : List Frame) : List Node := (stack.map Frame.node).reverse

/-- Tokens at the leaves of the stack, in source order. -/
def stackLeaves (stack : List Frame) : List Token := leavesL (stackNodes stack)

/-- Invariant of the parse stack: its nodes chain over exactly the consumed
range, and each is well-formed (spec sections 3 and 4.3). -/
def SInv (pos : Nat) (stack : List Frame) : Prop :=
  ChainFrom 0 (stackNodes stack) pos ∧ ∀ f ∈ stack, Wf f.node

theorem stackNodes_cons (f : Frame) (stack : List Frame) :
    stackNodes (f :: stack) = stackNodes stack ++ [f.node] := by
  simp [stackNodes]

theorem stackNodes_split (stack : List Frame) (n : Nat) :
    stackNodes stack
      = stackNodes (stack.drop n) ++ ((stack.take n).map Frame.node).reverse := by
  unfold stackNodes
  rw [← List.reverse_append, ← List.map_append, List.take_append_drop]

theorem reduceStep_inv {tbl : Table} {p pos : Nat} {stack : List Frame}
    (h : SInv pos stack) :
    SInv pos (reduceStep tbl stack p pos) ∧
      stackLeaves (reduceStep tbl stack p pos) = stackLeaves stack := by
  obtain ⟨hch, hwf⟩ := h
  have hsplit := stackNodes_split stack (rhsLenOf tbl p)
  rw [hsplit] at hch
  rcases chainFrom_append.mp hch with ⟨m, hrest, hkids⟩
  have hkidwf : ∀ c ∈ ((stack.take (rhsLenOf tbl p)).map Frame.node).reverse, Wf c := by
    intro c hc
    rw [List.mem_reverse, List.mem_map] at hc
    rcases hc with ⟨f, hf, rfl⟩
    exact hwf f (List.mem_of_mem_take hf)
  refine ⟨⟨?_, ?_⟩, ?_⟩
  · rw [reduceStep, stackNodes_cons]
    exact chainFrom_append.mpr
      ⟨m, hrest, mkInterior_singleton_chain hkids (lhsOf tbl p) false⟩
  · intro f hf
    rw [reduceStep, List.mem_cons] at hf
    rcases hf with rfl | hf
    · exact mkInterior_wf hkids hkidwf (lhsOf tbl p) false
    · exact hwf f (List.mem_of_mem_drop hf)
  · unfold stackLeaves
    rw [reduceStep, stackNodes_cons, leavesL_append, hsplit, leavesL_append]
    simp [leavesL, leavesN_mkInterior]

theorem errSkip_inv {t : Token} {stack : List Frame} (hs : t.start ≤ t.stop)
    (h : SInv t.start stack) :
    SInv t.stop (errSkip stack t) ∧
      stackLeaves (errSkip stack t) = stackLeaves stack ++ [t] := by
  obtain ⟨hch, hwf⟩ := h
  refine ⟨⟨?_, ?_⟩, ?_⟩
  · rw [errSkip, stackNodes_cons]
    refine chainFrom_append.mpr ⟨t.start, hch, ?_⟩
    exact ⟨rfl, rfl⟩
  · intro f hf
    rw [errSkip, List.mem_cons] at hf
    rcases hf with rfl | hf
    · refine Wf.node _ _ _ _ _ _ ?_ ?_
      · intro c hc
        simp only [List.mem_singleton] at hc
        subst hc
        exact Wf.leaf _ _ _ _ _ hs
      · exact ⟨rfl, rfl⟩
    · exact hwf f hf
  · unfold stackLeaves
    rw [errSkip, stackNodes_cons, leavesL_append]
    simp [leavesL, leavesN, Node.ofToken]

theorem stepTok_inv {tbl : Table} {t : Token} {stack : List Frame}
    (hs : t.start ≤ t.stop) :
    ∀ fuel, SInv t.start stack →
      SInv t.stop (stepTok tbl t fuel stack) ∧
        stackLeaves (stepTok tbl t fuel stack) = stackLeaves stack ++ [t] := by
  intro fuel
  induction fuel generalizing stack with
  | zero =>
    intro h
    exact errSkip_inv hs h
  | succ fuel ih =>
    intro h
    rw [stepTok]
    cases hact : actionFor tbl (curState stack) (some t.kind) with
    | shift s =>
      obtain ⟨hch, hwf⟩ := h
      refine ⟨⟨?_, ?_⟩, ?_⟩
      · rw [stackNodes_cons]
        refine chainFrom_append.mpr ⟨t.start, hch, ?_⟩
        exact ⟨rfl, rfl⟩
      · intro f hf
        rw [List.mem_cons] at hf
        rcases hf with rfl | hf
        · exact Wf.leaf _ _ _ _ _ hs
        · exact hwf f hf
      · unfold stackLeaves
        rw [stackNodes_cons, leavesL_append]
        simp [leavesL, leavesN, Node.ofToken]
    | reduce p =>
      have hred := @reduceStep_inv tbl p t.start stack h
      have hres := ih hred.1
      refine ⟨hres.1, ?_⟩
      rw [hres.2, hred.2]
    | accept => exact errSkip_inv hs h
    | error => exact errSkip_inv hs h

theorem runToks_inv {tbl : Table} {len : Nat} :
    ∀ (toks : List Token) (pos : Nat) (stack : List Frame),
      ChainToks pos toks len → SInv pos stack →
      SInv len (runToks tbl toks stack) ∧
        stackLeaves (runToks tbl toks stack) = stackLeaves stack ++ toks := by
  intro toks
  induction toks with
  | nil =>
    intro pos stack hc h
    have hp : pos = len := hc
    subst hp
    exact ⟨h, by simp [runToks]⟩
  | cons t ts ih =>
    intro pos stack hc h
    obtain ⟨h1, h2, h3⟩ := hc
    subst h1
    rw [runToks]
    have hstep := @stepTok_inv tbl t stack h2 tbl.cap h
    have hrest := ih t.stop _ h3 hstep.1
    refine ⟨hrest.1, ?_⟩
    rw [hrest.2, hstep.2]
    simp

theorem finishRun_inv {tbl : Table} {pos : Nat} :
    ∀ (fuel : Nat) (stack : List Frame), SInv pos stack →
      SInv pos (finishRun tbl pos fuel stack) ∧
        stackLeaves (finishRun tbl pos fuel stack) = stackLeaves stack := by
  intro fuel
  induction fuel with
  | zero =>
    intro stack h
    exact ⟨h, rfl⟩
  | succ fuel ih =>
    intro stack h
    rw [finishRun]
    cases hact : actionFor tbl (curState stack) none with
    | reduce p =>
      have hred := @reduceStep_inv tbl p pos stack h
      have hres := ih _ hred.1
      refine ⟨hres.1, ?_⟩
      rw [hres.2, hred.2]
    | shift s => exact ⟨h, rfl⟩
    | accept => exact ⟨h, rfl⟩
    | error => exact ⟨h, rfl⟩

theorem mkRoot_props {tbl : Table} {stack : List Frame} {len : Nat}
    (hch : ChainFrom 0 (stackNodes stack) len) (hwf : ∀ f ∈ stack, Wf f.node) :
    (mkRoot tbl stack).start = 0 ∧ (mkRoot tbl stack).stop = len ∧
      Wf (mkRoot tbl stack) ∧ leavesN (mkRoot tbl stack) = leavesL (stackNodes stack) := by
  have hwf2 : ∀ c ∈ stackNodes stack, Wf c := by
    intro c hc
    unfold stackNodes at hc
    rw [List.mem_reverse, List.mem_map] at hc
    rcases hc with ⟨f, hf, rfl⟩
    exact hwf f hf
  have hroot : mkRoot tbl stack
      = mkInterior kRoot (stackNodes stack) 0 (! acceptedStack tbl stack) := rfl
  rw [hroot]
  cases hsn : stackNodes stack with
  | nil =>
    rw [hsn] at hch
    have h0 : (0 : Nat) = len := hch
    refine ⟨by simp [mkInterior], ?_, ?_, ?_⟩
    · simp [mkInterior]
      omega
    · exact Wf.node _ _ _ _ _ _ (by simp) rfl
    · rw [leavesN_mkInterior]
  | cons c rest =>
    rw [hsn] at hch hwf2
    refine ⟨?_, ?_, ?_, ?_⟩
    · simp only [mkInterior, Node.start_mk]
      exact hch.1
    · simp only [mkInterior, Node.stop_mk]
      exact chainFrom_last hch
    · exact mkInterior_wf hch hwf2 kRoot (! acceptedStack tbl stack)
    · rw [leavesN_mkInterior]

/-- Master property of the Parser Engine over any contiguous token stream:
the resulting tree spans exactly the input range, is structurally
well-formed, and its leaves are exactly the given tokens. -/
theorem parseCore_props {tbl : Table} {toks : List Token} {len : Nat}
    (hc : ChainToks 0 toks len) :
    (parseCore tbl toks len).start = 0 ∧ (parseCore tbl toks len).stop = len ∧
      Wf (parseCore tbl toks len) ∧ leavesN (parseCore tbl toks len) = toks := by
  have hinit : SInv 0 ([] : List Frame) := ⟨rfl, by intro f hf; simp at hf⟩
  have hrun := @runToks_inv tbl len toks 0 [] hc hinit
  have hfin := @finishRun_inv tbl len tbl.cap _ hrun.1
  obtain ⟨⟨hch, hwf⟩, hlv⟩ := hfin
  have hleaves : stackLeaves (finishRun tbl len tbl.cap (runToks tbl toks []))
      = toks := by
    rw [hlv, hrun.2]
    simp [stackLeaves, stackNodes, leavesL]
  have hm := @mkRoot_props tbl _ _ hch hwf
  refine ⟨hm.1, hm.2.1, hm.2.2.1, ?_⟩
  rw [parseCore, hm.2.2.2]
  exact hleaves

/-! ## Properties of a full parse -/

/-- Combined properties of parse(table, sourceBytes): full coverage,
well-formedness, and leaves identical to the lexed token stream. -/
theorem parse_props (tbl : Table) (s : String) :
    (parse tbl s).start = 0 ∧ (parse tbl s).stop = s.data.length ∧ Wf (parse tbl s) ∧
      leavesN (parse tbl s) = lexFrom tbl.lexRules s.data 0 := by
  have hc := lexFrom_chain tbl.lexRules s.data (s.data.length) 0 (by omega) (by omega)
  exact @parseCore_props tbl _ _ hc

/-- A contiguous token stream covers every position of its range. -/
theorem chainToks_cover {len : Nat} :
    ∀ {toks : List Token} {s : Nat}, ChainToks s toks len → ∀ p, s ≤ p → p < len →
      ∃ t ∈ toks, t.start ≤ p ∧ p < t.stop := by
  intro toks
  induction toks with
  | nil =>
    intro s h p hp hpl
    have hs : s = len := h
    exfalso
    omega
  | cons t ts ih =>
    intro s h p hp hpl
    obtain ⟨h1, h2, h3⟩ := h
    by_cases hc : p < t.stop
    · exact ⟨t, by simp, by omega, hc⟩
    · rcases ih h3 p (by omega) hpl with ⟨u, hu, hu2⟩
      exact ⟨u, by simp [hu], hu2⟩

/-! ## Locality of the lexer and correctness of incremental lexing -/

theorem maxTokLen_bound {rules : List LexRule} {r : LexRule} (h : r ∈ rules) :
    r.text.length ≤ maxTokLen rules := by
  induction rules with
  | nil => simp at h
  | cons a rest ih =>
    rw [List.mem_cons] at h
    have hstep : maxTokLen (a :: rest) = max a.text.length (maxTokLen rest) := rfl
    rcases h with rfl | h
    · rw [hstep]
      omega
    · have := ih h
      rw [hstep]
      omega

/-- The lexer step depends only on the next maxTokLen characters. -/
theorem munch_local {rules : List LexRule} {s1 s2 : List Char}
    (h : s1.take (maxTokLen rules) = s2.take (maxTokLen rules)) :
    munch rules s1 = munch rules s2 := by
  have key : ∀ (rs : List LexRule) (L : Nat), (∀ r ∈ rs, r.text.length ≤ L) →
      s1.take L = s2.take L → munch rs s1 = munch rs s2 := by
    intro rs
    induction rs with
    | nil =>
      intro L hb ht
      rfl
    | cons r rest ih =>
      intro L hb ht
      have hr : r.text.length ≤ L := hb r (by simp)
      have hiff : r.text <+: s1 ↔ r.text <+: s2 := by
        constructor
        · intro hp
          have htk : r.text <+: s1.take L := List.prefix_take_iff.mpr ⟨hp, hr⟩
          rw [ht] at htk
          exact (List.prefix_take_iff.mp htk).1
        · intro hp
          have htk : r.text <+: s2.take L := List.prefix_take_iff.mpr ⟨hp, hr⟩
          rw [← ht] at htk
          exact (List.prefix_take_iff.mp htk).1
      have hpref : r.text.isPrefixOf s1 = r.text.isPrefixOf s2 := by
        refine Bool.eq_iff_iff.mpr ?_
        rw [List.isPrefixOf_iff_prefix, List.isPrefixOf_iff_prefix]
        exact hiff
      have hrest := ih L (fun x hx => hb x (by simp [hx])) ht
      simp only [munch, hpref, hrest]
  exact key rules (maxTokLen rules) (fun r hr => maxTokLen_bound hr) h

/-- Editing strictly after a window leaves the window unchanged. -/
theorem applyEdit_window {txt : List Char} {e : Edit} {q L : Nat}
    (h1 : q + L ≤ e.start) (h2 : q + L ≤ txt.length) :
    ((applyEdit txt e).drop q).take L = (txt.drop q).take L := by
  rw [applyEdit, List.append_assoc, List.drop_append_eq_append_drop]
  have hlen : L ≤ ((txt.take e.start).drop q).length := by
    simp
    omega
  rw [List.take_append_of_le_length hlen]
  rw [List.drop_take, List.take_take]
  congr 1
  omega

/-- The text strictly after the edited region is the old suffix, repositioned
by the length delta. -/
theorem applyEdit_suffix {txt : List Char} {e : Edit} {ts : Nat}
    (h1 : e.start + e.oldLen ≤ ts) (h2 : e.start ≤ txt.length) :
    (applyEdit txt e).drop ((ts - e.oldLen) + e.inserted.length) = txt.drop ts := by
  rw [applyEdit, List.append_assoc, List.drop_append_eq_append_drop,
    List.drop_append_eq_append_drop]
  have hA : (List.take e.start txt).length = e.start := by
    rw [List.length_take]
    omega
  rw [hA]
  have hd1 : List.drop ((ts - e.oldLen) + e.inserted.length) (List.take e.start txt) = [] := by
    apply List.drop_eq_nil_of_le
    rw [hA]
    omega
  have hd2 : List.drop (((ts - e.oldLen) + e.inserted.length) - e.start) e.inserted = [] := by
    apply List.drop_eq_nil_of_le
    omega
  rw [hd1, hd2, List.nil_append, List.nil_append, List.drop_drop]
  congr 1
  omega

theorem incLexFrom_neg {rules : List LexRule} {txt : List Char} {e : Edit}
    {oldLeaves : List Token} {oldLen q : Nat} (h : ¬ q < txt.length) :
    incLexFrom rules txt e oldLeaves oldLen q = [] := by
  rw [incLexFrom]
  have h1 : txt.length - q = 0 := by omega
  rw [h1]
  rfl

theorem incLexFrom_reuse {rules : List LexRule} {txt : List Char} {e : Edit}
    {oldLeaves : List Token} {oldLen q : Nat} {t : Token} (h : q < txt.length)
    (hf : oldLeaves.find? (fun u => decide (Reusable (maxTokLen rules) oldLen e q u))
      = some t) (hw : t.start < t.stop) :
    incLexFrom rules txt e oldLeaves oldLen q
      = ⟨t.kind, q, q + (t.stop - t.start), t.isErr, t.isMissing⟩
          :: incLexFrom rules txt e oldLeaves oldLen (q + (t.stop - t.start)) := by
  rw [incLexFrom, incLexFrom]
  have h1 : txt.length - q = (txt.length - q - 1) + 1 := by omega
  rw [h1]
  simp only [incLexGo, if_pos h, hf]
  rw [incLexGo_fuel (txt.length - q - 1) (txt.length - (q + (t.stop - t.start)))
    (q + (t.stop - t.start)) (by omega) (by omega)]

theorem incLexFrom_fresh {rules : List LexRule} {txt : List Char} {e : Edit}
    {oldLeaves : List Token} {oldLen q : Nat} (h : q < txt.length)
    (hf : oldLeaves.find? (fun u => decide (Reusable (maxTokLen rules) oldLen e q u))
      = none) :
    incLexFrom rules txt e oldLeaves oldLen q
      = tokenAt rules txt q
          :: incLexFrom rules txt e oldLeaves oldLen ((tokenAt rules txt q).stop) := by
  rw [incLexFrom, incLexFrom]
  have h1 : txt.length - q = (txt.length - q - 1) + 1 := by omega
  rw [h1]
  simp only [incLexGo, if_pos h, hf]
  have hs := tokenAt_lt rules txt q
  rw [incLexGo_fuel (txt.length - q - 1) (txt.length - (tokenAt rules txt q).stop)
    ((tokenAt rules txt q).stop) (by omega) (by omega)]

/-- Splicing reusable old tokens is invisible: the incremental token stream
coincides with a from-scratch lexing of the edited text. -/
theorem incLex_eq (rules : List LexRule) (old : List Char) (e : Edit) :
    ∀ n q, (applyEdit old e).length - q ≤ n →
      incLexFrom rules (applyEdit old e) e (lexFrom rules old 0) old.length q
        = lexFrom rules (applyEdit old e) q := by
  intro n
  induction n with
  | zero =>
    intro q hq
    rw [incLexFrom_neg (by omega), lexFrom_neg (by omega)]
  | succ n ih =>
    intro q hq
    by_cases hlt : q < (applyEdit old e).length
    · cases hf : (lexFrom rules old 0).find?
          (fun u => decide (Reusable (maxTokLen rules) old.length e q u)) with
      | none =>
        rw [incLexFrom_fresh hlt hf, lexFrom_pos hlt]
        have hw := tokenAt_lt rules (applyEdit old e) q
        congr 1
        exact ih _ (by omega)
      | some t =>
        have hmem := List.mem_of_find?_eq_some hf
        have hp := List.find?_some hf
        rw [decide_eq_true_iff] at hp
        obtain ⟨hwidth, hcase⟩ := hp
        have hshape := lexFrom_mem rules old (old.length) 0 t (by omega) hmem
        obtain ⟨htlt, htok⟩ := hshape
        have hmeq : munch rules ((applyEdit old e).drop q)
            = munch rules (old.drop t.start) := by
          rcases hcase with ⟨hq1, hb1, hb2⟩ | ⟨ha1, ha2⟩
          · subst hq1
            exact munch_local (applyEdit_window hb1 hb2)
          · have hes : e.start ≤ old.length := by omega
            rw [← ha2]
            rw [applyEdit_suffix ha1 hes]
        have htk : tokenAt rules (applyEdit old e) q
            = ⟨t.kind, q, q + (t.stop - t.start), t.isErr, t.isMissing⟩ := by
          conv_rhs => rw [← htok]
          rw [tokenAt, tokenAt, hmeq]
          cases hmm : munch rules (old.drop t.start) with
          | some kn => simp
          | none => simp
        rw [incLexFrom_reuse hlt hf hwidth, lexFrom_pos hlt, htk]
        congr 1
        · exact ih _ (by omega)
    · rw [incLexFrom_neg hlt, lexFrom_neg hlt]

/-- Incremental parsing at the Parse entry point is indistinguishable from
parsing the edited text from scratch. -/
theorem parseInc_from_scratch (tbl : Table) (s : String) (e : Edit) :
    parseInc tbl (applyEditS s e) (parse tbl s) e = parse tbl (applyEditS s e) := by
  have hp := parse_props tbl s
  rw [parseInc, hp.2.2.2, hp.2.1]
  have hdata : (applyEditS s e).data = applyEdit s.data e := rfl
  rw [hdata]
  rw [incLex_eq tbl.lexRules s.data e ((applyEdit s.data e).length) 0 (by omega)]
  rfl

/-! ## Step-count bounds (spec sections 4.2, 4.3, 8) -/

theorem stepTokSteps_le (tbl : Table) (t : Token) :
    ∀ (fuel : Nat) (stack : List Frame), stepTokSteps tbl t fuel stack ≤ fuel + 1 := by
  intro fuel
  induction fuel with
  | zero =>
    intro stack
    rw [stepTokSteps]
  | succ fuel ih =>
    intro stack
    rw [stepTokSteps]
    cases actionFor tbl (curState stack) (some t.kind) with
    | shift s =>
      show (1 : Nat) ≤ fuel + 1 + 1
      omega
    | reduce p =>
      have := ih (reduceStep tbl stack p t.start)
      show 1 + stepTokSteps tbl t fuel (reduceStep tbl stack p t.start) ≤ fuel + 1 + 1
      omega
    | accept =>
      show (1 : Nat) ≤ fuel + 1 + 1
      omega
    | error =>
      show (1 : Nat) ≤ fuel + 1 + 1
      omega

theorem finishRunSteps_le (tbl : Table) (pos : Nat) :
    ∀ (fuel : Nat) (stack : List Frame), finishRunSteps tbl pos fuel stack ≤ fuel + 1 := by
  intro fuel
  induction fuel with
  | zero =>
    intro stack
    rw [finishRunSteps]
  | succ fuel ih =>
    intro stack
    rw [finishRunSteps]
    cases actionFor tbl (curState stack) none with
    | shift s =>
      show (1 : Nat) ≤ fuel + 1 + 1
      omega
    | reduce p =>
      have := ih (reduceStep tbl stack p pos)
      show 1 + finishRunSteps tbl pos fuel (reduceStep tbl stack p pos) ≤ fuel + 1 + 1
      omega
    | accept =>
      show (1 : Nat) ≤ fuel + 1 + 1
      omega
    | error =>
      show (1 : Nat) ≤ fuel + 1 + 1
      omega

theorem runToksSteps_le (tbl : Table) :
    ∀ (toks : List Token) (stack : List Frame),
      runToksSteps tbl toks stack ≤ toks.length * (tbl.cap + 2) := by
  intro toks
  induction toks with
  | nil =>
    intro stack
    simp [runToksSteps]
  | cons t ts ih =>
    intro stack
    rw [runToksSteps]
    have h1 := stepTokSteps_le tbl t tbl.cap stack
    have h2 := ih (stepTok tbl t tbl.cap stack)
    have h3 : (t :: ts).length * (tbl.cap + 2)
        = ts.length * (tbl.cap + 2) + (tbl.cap + 2) := by
      simp [List.length_cons]
      ring
    omega

theorem lexFrom_length (rules : List LexRule) (txt : List Char) :
    ∀ n p, txt.length - p ≤ n → (lexFrom rules txt p).length ≤ txt.length - p := by
  intro n
  induction n with
  | zero =>
    intro p hn
    rw [lexFrom_neg (by omega)]
    simp
  | succ n ih =>
    intro p hn
    by_cases h : p < txt.length
    · rw [lexFrom_pos h]
      have h1 := tokenAt_lt rules txt p
      have h2 := ih ((tokenAt rules txt p).stop) (by omega)
      simp only [List.length_cons]
      omega
    · rw [lexFrom_neg h]
      simp

/-- The total work of a parse is linear in the input length, with a factor
from the exploration cap of the table. -/
theorem parseSteps_le (tbl : Table) (s : String) :
    parseSteps tbl s ≤ (tbl.cap + 3) * (s.data.length + 2) := by
  rw [parseSteps]
  have h1 := lexFrom_length tbl.lexRules s.data (s.data.length) 0 (by omega)
  have h2 := runToksSteps_le tbl (lexFrom tbl.lexRules s.data 0) []
  have h3 := finishRunSteps_le tbl (s.data.length) tbl.cap
    (runToks tbl (lexFrom tbl.lexRules s.data 0) [])
  have hmul : (lexFrom tbl.lexRules s.data 0).length * (tbl.cap + 2)
      ≤ s.data.length * (tbl.cap + 2) := by
    apply Nat.mul_le_mul_right
    omega
  have hring1 : s.data.length * (tbl.cap + 2)
      = s.data.length * tbl.cap + 2 * s.data.length := by ring
  have hring2 : (tbl.cap + 3) * (s.data.length + 2)
      = s.data.length * tbl.cap + 3 * s.data.length + 2 * tbl.cap + 6 := by ring
  omega

/-! ## Control-flow characterization of the compiler -/

/-- The compiler fails exactly on the four error lists of spec section 7. -/
theorem compile_error_characterization (rs : RuleSet) :
    (∃ err, compile rs = Except.error err) ↔
      (undefinedRefs rs ≠ [] ∨ unreachableRules rs ≠ [] ∨
        unresolvedConflicts rs ≠ [] ∨ overCapStates rs ≠ []) := by
  unfold compile
  split_ifs with h1 h2 h3 h4
  · simp [h1]
  · simp [h2]
  · simp [h3]
  · simp [h4]
  · simp [h1, h2, h3, h4]

/-! ## Concrete grammars for the scenario properties (spec section 8) -/

def kNum : String := "NUMBER"

def kPlus : String := "PLUS"

def nExpr : String := "expr"

/-- The scenario grammar of spec section 8: expr := NUMBER | expr "+" expr
with left-associative precedence on the addition production.  NUMBER lexes
the digits used by the scenario input; "+" lexes the plus sign. -/
def exprGrammar : RuleSet :=
  { rules := [(nExpr, RuleBody.choice (RuleBody.lit kNum)
      (RuleBody.tagged 1 Assoc.left (RuleBody.seq (RuleBody.ref nExpr)
        (RuleBody.seq (RuleBody.lit kPlus) (RuleBody.ref nExpr)))))]
    terminals := [(kNum, [['1'], ['2'], ['3']]), (kPlus, [['+']])]
    start := nExpr }

/-- The table compiled from the scenario grammar. -/
def exprTable : Table :=
  (compile exprGrammar).toOption.getD
    { lexRules := [], prods := [], actions := [], gotos := [], cap := maxLivePaths }

def kA : String := "a"

def nStart : String := "S"

def altName (i : Nat) : String := "A" ++ Nat.repr i

/-- A deliberately over-ambiguous rule set: nine rules that each derive the
same single token, so nine parse paths are simultaneously live after reading
it — more than the fixed maximum of spec section 4.2. -/
def amb9 : RuleSet :=
  { rules := (nStart, (List.range 8).foldr
      (fun i acc => RuleBody.choice (RuleBody.ref (altName i)) acc)
      (RuleBody.ref (altName 8)))
      :: (List.range 9).map (fun i => (altName i, RuleBody.lit kA))
    terminals := [(kA, [['a']])]
    start := nStart }

/-! ## Per-node form of the structural invariant -/

mutual

/-- A node together with all its descendants. -/
def nodesOf : Node → List Node
  | .mk k s e a m l cs => .mk k s e a m l cs :: nodesL cs

def nodesL : List Node → List Node
  | [] => []
  | c :: cs => nodesOf c ++ nodesL cs

end

/-- The invariant of spec section 3 at a single node: the children chain
across exactly the parent range, hence are pairwise non-overlapping,
contiguous, and nested; a leaf merely has a well-ordered range. -/
def NodeOk : Node → Prop
  | .mk _ s e _ _ true _ => s ≤ e
  | .mk _ s e _ _ false cs => ChainFrom s cs e

def decChainFrom : (s : Nat) → (cs : List Node) → (e : Nat) → Decidable (ChainFrom s cs e)
  | s, [], e => inferInstanceAs (Decidable (s = e))
  | s, c :: cs, e =>
    have : Decidable (ChainFrom c.stop cs e) := decChainFrom c.stop cs e
    inferInstanceAs (Decidable (_ ∧ _))

instance (s : Nat) (cs : List Node) (e : Nat) : Decidable (ChainFrom s cs e) :=
  decChainFrom s cs e

instance : DecidablePred NodeOk := fun n =>
  match n with
  | .mk _ s e _ _ true _ => inferInstanceAs (Decidable (s ≤ e))
  | .mk _ s e _ _ false cs => inferInstanceAs (Decidable (ChainFrom s cs e))

/-- A chain of nodes with well-ordered ranges stays inside its end points. -/
theorem chainFrom_bounds {cs : List Node} :
    ∀ {s e : Nat}, ChainFrom s cs e → (∀ c ∈ cs, c.start ≤ c.stop) →
      s ≤ e ∧ ∀ c ∈ cs, s ≤ c.start ∧ c.stop ≤ e := by
  induction cs with
  | nil =>
    intro s e h hw
    have hs : s = e := h
    exact ⟨by omega, by simp⟩
  | cons c cs ih =>
    intro s e h hw
    obtain ⟨h1, h2⟩ := h
    have hc := hw c (by simp)
    have hrest := ih h2 (fun d hd => hw d (by simp [hd]))
    refine ⟨by omega, ?_⟩
    intro d hd
    rcases List.mem_cons.mp hd with rfl | hd
    · exact ⟨by omega, by omega⟩
    · have := hrest.2 d hd
      exact ⟨by omega, this.2⟩

/-- Well-formed nodes have well-ordered ranges. -/
theorem wf_le {n : Node} (h : Wf n) : n.start ≤ n.stop := by
  induction h with
  | leaf k s e a m hle => simpa using hle
  | node k s e a m cs hcs hchain ih =>
    have := chainFrom_bounds hchain (fun c hc => ih c hc)
    simpa using this.1

theorem nodesL_mem {x : Node} :
    ∀ {cs : List Node}, x ∈ nodesL cs → ∃ c ∈ cs, x ∈ nodesOf c := by
  intro cs
  induction cs with
  | nil =>
    intro hx
    simp [nodesL] at hx
  | cons c cs ih =>
    intro hx
    rw [nodesL, List.mem_append] at hx
    rcases hx with hx | hx
    · exact ⟨c, by simp, hx⟩
    · rcases ih hx with ⟨d, hd, hdx⟩
      exact ⟨d, by simp [hd], hdx⟩

/-- Every node of a well-formed tree satisfies the single-node invariant and
keeps its children nested inside its own range. -/
theorem wf_all {n : Node} (h : Wf n) :
    ∀ m ∈ nodesOf n, NodeOk m ∧
      ∀ c ∈ m.children, m.start ≤ c.start ∧ c.stop ≤ m.stop := by
  induction h with
  | leaf k s e a m hle =>
    intro x hx
    rw [nodesOf, nodesL] at hx
    simp at hx
    subst hx
    exact ⟨hle, by simp⟩
  | node k s e a m cs hcs hchain ih =>
    intro x hx
    rw [nodesOf] at hx
    rcases List.mem_cons.mp hx with rfl | hx
    · refine ⟨hchain, ?_⟩
      have hb := chainFrom_bounds hchain (fun c hc => wf_le (hcs c hc))
      simpa using hb.2
    · rcases nodesL_mem hx with ⟨c, hc, hcx⟩
      exact ih c hc x hcx

/-! ## Concrete inputs used by the scenario and witness theorems -/

def srcExample : String := "1+2+3"

def srcBad : String := "1?"

def leafNum (s e : Nat) : Node := Node.mk kNum s e false false true []

def leafPlus (s e : Nat) : Node := Node.mk kPlus s e false false true []

/-- The left-associated tree ((1+2)+3) over the scenario input: the inner
addition groups the first two numbers, and the outer addition adds the
third. -/
def exprLeftTree : Node :=
  Node.mk kRoot 0 5 false false false
    [Node.mk nExpr 0 5 false false false
      [Node.mk nExpr 0 3 false false false
        [Node.mk nExpr 0 1 false false false [leafNum 0 1],
         leafPlus 1 2,
         Node.mk nExpr 2 3 false false false [leafNum 2 3]],
       leafPlus 3 4,
       Node.mk nExpr 4 5 false false false [leafNum 4 5]]]

/-- The scenario grammar compiles to exactly the table exprTable. -/
theorem compile_expr_ok : compile exprGrammar = Except.ok exprTable := rfl

/-! ## Claim theorems -/

/-- C1: For every source text T, every edit E, and every compiled table,
incremental parsing equals from-scratch parsing:
parse(table, apply(T,E), oldTree=parse(table,T), E) yields a tree that is
node-for-node identical to parse(table, apply(T,E)); subtree reuse is never
observable in the result. -/
theorem claim_c1_incremental_equals_scratch (tbl : Table) (s : String) (e : Edit) :
    parseInc tbl (applyEditS s e) (parse tbl s) e = parse tbl (applyEditS s e) :=
  parseInc_from_scratch tbl s e

/-- C2: For every source text T and every compiled table, the tree returned
by parse(table, T) has a root node whose covered byte range equals
[0, length(T)), including on malformed input. -/
theorem claim_c2_root_covers_input (tbl : Table) (s : String) :
    (parse tbl s).start = 0 ∧ (parse tbl s).stop = s.length :=
  ⟨(parse_props tbl s).1, (parse_props tbl s).2.1⟩

/-- C3: The Parser Engine never signals a hard parse failure: parse is a
total function into trees; every input position lies under a leaf of the
returned tree, the leaves are exactly the lexed token stream, and a span the
lexer cannot match becomes an error token rather than a thrown failure. -/
theorem claim_c3_no_hard_failure (tbl : Table) (s : String) :
    (∀ p, p < s.length → ∃ t ∈ leavesN (parse tbl s), t.start ≤ p ∧ p < t.stop) ∧
    leavesN (parse tbl s) = lexFrom tbl.lexRules s.data 0 ∧
    (∀ p, munch tbl.lexRules (s.data.drop p) = none →
      (tokenAt tbl.lexRules s.data p).isErr = true ∧
        (tokenAt tbl.lexRules s.data p).kind = kError) := by
  refine ⟨?_, (parse_props tbl s).2.2.2, ?_⟩
  · intro p hp
    rw [(parse_props tbl s).2.2.2]
    exact chainToks_cover
      (lexFrom_chain tbl.lexRules s.data (s.data.length) 0 (by omega) (by omega))
      p (by omega) hp
  · intro p hm
    rw [tokenAt, hm]
    exact ⟨rfl, rfl⟩

/-- Closed instance of C3 on a concrete malformed input: position 1 of the
input is covered by a leaf of the tree, and the unmatched byte at position 1
became an error token. -/
theorem claim_c3_witness :
    (∃ t ∈ leavesN (parse exprTable srcBad), t.start ≤ 1 ∧ 1 < t.stop) ∧
    ((tokenAt exprTable.lexRules srcBad.data 1).isErr = true ∧
      (tokenAt exprTable.lexRules srcBad.data 1).kind = kError) :=
  ⟨(claim_c3_no_hard_failure exprTable srcBad).1 1 (by decide),
   (claim_c3_no_hard_failure exprTable srcBad).2.2 1 (by decide)⟩

/-- C4: For every grammar that compiles successfully and every input text,
the Parser Engine terminates (parse and parseSteps are total functions), and
its step count is bounded linearly in the input length with a factor from the
exploration cap that the compiler wrote into the table. -/
theorem claim_c4_terminates_within_bound (rs : RuleSet) (tbl : Table) (s : String)
    (h : compile rs = Except.ok tbl) :
    tbl.cap = maxLivePaths ∧ parseSteps tbl s ≤ (tbl.cap + 3) * (s.length + 2) := by
  constructor
  · unfold compile at h
    split_ifs at h
    injection h with h2
    exact h2 ▸ rfl
  · exact parseSteps_le tbl s

/-- Closed instance of C4 at the scenario grammar and input. -/
theorem claim_c4_witness :
    exprTable.cap = maxLivePaths ∧
      parseSteps exprTable srcExample ≤ (exprTable.cap + 3) * (srcExample.length + 2) :=
  claim_c4_terminates_within_bound exprGrammar exprTable srcExample compile_expr_ok

/-- C5: The Grammar Table Compiler returns exactly one of a compiled table or
a compile-time failure (the Except type), and it fails precisely when the
rule set has an undefined rule reference, an unreachable rule, an unresolved
shift/reduce conflict, or ambiguity whose simultaneously live parse paths
exceed the fixed maximum; the last is reported as the diagnosable grammar too
ambiguous error. -/
theorem claim_c5_compile_contract (rs : RuleSet) :
    ((∃ err, compile rs = Except.error err) ↔
      (undefinedRefs rs ≠ [] ∨ unreachableRules rs ≠ [] ∨
        unresolvedConflicts rs ≠ [] ∨ overCapStates rs ≠ [])) ∧
    (undefinedRefs rs = [] → unreachableRules rs = [] → unresolvedConflicts rs = [] →
      overCapStates rs ≠ [] →
      compile rs = Except.error (CompileError.tooAmbiguous (overCapStates rs))) := by
  refine ⟨compile_error_characterization rs, ?_⟩
  intro h1 h2 h3 h4
  unfold compile
  rw [if_neg (by rw [h1]; simp), if_neg (by rw [h2]; simp), if_neg (by rw [h3]; simp),
    if_pos h4]

/-- Closed instance of C5: a nine-way ambiguous rule set exceeds the cap of
eight live paths and compilation fails with the grammar too ambiguous
error. -/
theorem claim_c5_witness :
    compile amb9 = Except.error (CompileError.tooAmbiguous (overCapStates amb9)) :=
  (claim_c5_compile_contract amb9).2 rfl rfl rfl (by decide)

/-- C6: Every syntax node of every tree produced by the Parser Engine — from
a full parse or an incremental re-parse — satisfies the structural invariant:
its children chain across exactly its range (pairwise non-overlapping,
contiguous) and are nested inside it. -/
theorem claim_c6_child_ranges (tbl : Table) (s s2 : String) (e : Edit) :
    (∀ m ∈ nodesOf (parse tbl s), NodeOk m ∧
      ∀ c ∈ m.children, m.start ≤ c.start ∧ c.stop ≤ m.stop) ∧
    (∀ m ∈ nodesOf (parseInc tbl (applyEditS s2 e) (parse tbl s2) e), NodeOk m ∧
      ∀ c ∈ m.children, m.start ≤ c.start ∧ c.stop ≤ m.stop) := by
  constructor
  · exact wf_all (parse_props tbl s).2.2.1
  · rw [parseInc_from_scratch]
    exact wf_all (parse_props tbl (applyEditS s2 e)).2.2.1

/-- Closed instance of C6 at the root node of the scenario parse. -/
theorem claim_c6_witness :
    NodeOk exprLeftTree ∧
      ∀ c ∈ exprLeftTree.children,
        exprLeftTree.start ≤ c.start ∧ c.stop ≤ exprLeftTree.stop :=
  (claim_c6_child_ranges exprTable srcExample srcExample ⟨0, 0, []⟩).1 exprLeftTree
    (by
      have h : nodesOf (parse exprTable srcExample)
          = exprLeftTree :: nodesL exprLeftTree.children := rfl
      rw [h]
      exact List.mem_cons_self _ _)

/-- C7: parse is deterministic: two calls on identical input yield
structurally identical trees. -/
theorem claim_c7_deterministic (tbl : Table) (s1 s2 : String) (h : s1 = s2) :
    parse tbl s1 = parse tbl s2 := by
  rw [h]

/-- Closed instance of C7 on the scenario input. -/
theorem claim_c7_witness : parse exprTable srcExample = parse exprTable srcExample :=
  claim_c7_deterministic exprTable srcExample srcExample rfl

/-- C8: the binding entry point is side-effect-free beyond
returning/initializing the grammar handle: any two calls, in sequence, return
the same handle to the one pre-compiled table; the call never changes the
number of parses performed (the binding performs no parsing), and its only
world effect is marking the handle initialized. -/
theorem claim_c8_binding_pure (w : BindingWorld) :
    (languageCall w).1 = (languageCall ((languageCall w).2)).1 ∧
    (languageCall w).1 = ⟨stlcppTable⟩ ∧
    ((languageCall w).2).parsesPerformed = w.parsesPerformed ∧
    (languageCall w).2 = { w with handleInit := true } :=
  ⟨rfl, rfl, rfl, rfl⟩

/-- C10: language() returns exactly the value of the foreign entry point
tree_sitter_stlcpp(), with no transformation, caching, or additional state in
the Rust binding. -/
theorem claim_c10_language_is_direct_call : language = tree_sitter_stlcpp := rfl

/-- C9: with the grammar expr := NUMBER | expr "+" expr carrying
left-associative precedence on the addition, the input "1+2+3" parses as
((1+2)+3) — the left-associated tree — and not as (1+(2+3)). -/
theorem claim_c9_left_associative :
    compile exprGrammar = Except.ok exprTable ∧
      parse exprTable srcExample = exprLeftTree :=
  ⟨compile_expr_ok, rfl⟩
